import Mathlib

/-!
Verification of the `br2-utils` repository (Rust).

The Rust sources are shallowly embedded over `List Char`:
strings are lists of characters, line iteration (`BufRead::lines`) is made
explicit, and the filesystem is passed as an explicit map from paths to file
contents.  Fallible Rust functions returning `Result` become `Except`.

The two regular expressions of `defconfig.rs` and the one of `package.rs`
are embedded as explicit scanning functions with the semantics of the
`regex` crate on these patterns: unanchored leftmost match, greedy
character classes (`\s` is modelled on its ASCII part, which covers every
input appearing in the development).
-/

deriving instance DecidableEq for Except

namespace Br2Utils

/-! ### Basic string utilities shared by the embedded modules -/

/-- ASCII part of the `\s` regex class and of Rust `char::is_whitespace`:
space, tab, newline, carriage return, vertical tab, form feed. -/
def isWsChar (c : Char) : Bool :=
  c = ' ' || c = '\t' || c = '\n' || c = '\r' || c = '\x0b' || c = '\x0c'

/-- Boolean prefix test: `hasPrefixL pat l` is true iff `l` starts with `pat`. -/
def hasPrefixL : List Char → List Char → Bool
  | [], _ => true
  | _ :: _, [] => false
  | a :: pat, b :: l => a = b && hasPrefixL pat l

/-- Boolean suffix test (Rust `str::ends_with`). -/
def hasSuffixL (pat l : List Char) : Bool :=
  hasPrefixL pat.reverse l.reverse

/-- Rust `str::split(sep)`: splits on every occurrence of `sep`,
always returning at least one (possibly empty) field. -/
def splitOnCharL (sep : Char) : List Char → List (List Char)
  | [] => [[]]
  | c :: cs =>
    if c = sep then [] :: splitOnCharL sep cs
    else
      match splitOnCharL sep cs with
      | l :: ls => (c :: l) :: ls
      | [] => [[c]]

/-- Rust `str::trim` restricted to ASCII whitespace. -/
def trimL (l : List Char) : List Char :=
  ((l.dropWhile isWsChar).reverse.dropWhile isWsChar).reverse

/-- Close the current (reversed) line accumulator at a `'\n'`: a carriage
return just before the newline is stripped (`BufRead::lines` CRLF handling). -/
def finishLine (acc : List Char) : List Char :=
  match acc with
  | '\r' :: a => a.reverse
  | _ => acc.reverse

/-- Helper for `rustLines`: `acc` holds the current line reversed. -/
def linesAux : List Char → List Char → List (List Char)
  | acc, [] => if acc = [] then [] else [acc.reverse]
  | acc, c :: cs =>
    if c = '\n' then finishLine acc :: linesAux [] cs
    else linesAux (c :: acc) cs

/-- Concatenate lines, terminating each with a newline. -/
def joinNl (ls : List (List Char)) : List Char :=
  (ls.map (fun l => l ++ ['\n'])).flatten

/-- Rust `BufRead::lines`: split a text into lines, dropping the line
terminators; a trailing newline does not produce an extra empty line. -/
def rustLines (t : List Char) : List (List Char) :=
  linesAux [] t

/-! ## `defconfig.rs` -/

namespace defconfig

/-- Rust `defconfig::Error` (the `Io` variant is an I/O-boundary artefact). -/
inductive Error where
  | io : Error
  | invalidValue : List Char → Error
  | invalidSymbol : List Char → Error
deriving DecidableEq, Repr

/-- Rust `defconfig::SymbolValue`. -/
inductive SymbolValue where
  | bool : Bool → SymbolValue
  | string : List Char → SymbolValue
deriving DecidableEq, Repr

/-- Rust `SymbolValue::from_str`: a value that starts and ends with `'"'` has all
leading and all trailing quotes stripped (`trim_start_matches` /
`trim_end_matches`); otherwise `y`/`n` are booleans, anything else is invalid. -/
def SymbolValue.fromStr (s : List Char) : Except Error SymbolValue :=
  if s.head? = some '"' ∧ s.getLast? = some '"' then
    .ok (.string (((s.dropWhile (fun c => c = '"')).reverse.dropWhile
      (fun c => c = '"')).reverse))
  else if s = ['y'] then .ok (.bool true)
  else if s = ['n'] then .ok (.bool false)
  else .error (.invalidValue s)

/-- Rust `defconfig::Symbol`. -/
structure Symbol where
  name : List Char
  value : SymbolValue
deriving DecidableEq, Repr

/-- Character class `[a-zA-Z0-9_]` of the symbol-name regexes. -/
def isWordChar (c : Char) : Bool :=
  c.isAlpha || c.isDigit || c = '_'

/-- One attempted match of regex `(BR2_[a-zA-Z0-9_]+)=(.+)` at the start of
`cs`, returning the two capture groups.  The name run is greedy and `=` is not
a word character, and `.` excludes `'\n'`, so no backtracking arises. -/
def matchSetAt (cs : List Char) : Option (List Char × List Char) :=
  if hasPrefixL ('B' :: 'R' :: '2' :: '_' :: []) cs then
    let rest := cs.drop 4
    let run := rest.takeWhile isWordChar
    if run = [] then none
    else
      match rest.drop run.length with
      | '=' :: rest2 =>
        let v := rest2.takeWhile (fun c => ¬ (c = '\n'))
        if v = [] then none else some ('B' :: 'R' :: '2' :: '_' :: run, v)
      | _ => none
  else none

/-- Unanchored leftmost search for `(BR2_[a-zA-Z0-9_]+)=(.+)`. -/
def findSet : List Char → Option (List Char × List Char)
  | [] => none
  | c :: cs =>
    match matchSetAt (c :: cs) with
    | some r => some r
    | none => findSet cs

/-- One attempted match of regex `# (BR2_[a-zA-Z0-9_]+) is not set` at the
start of `cs`, returning the capture group.  The greedy name run must be
followed by the literal text `" is not set"` (not necessarily at the end). -/
def matchNotSetAt (cs : List Char) : Option (List Char) :=
  if hasPrefixL ('#' :: ' ' :: 'B' :: 'R' :: '2' :: '_' :: []) cs then
    let rest := cs.drop 6
    let run := rest.takeWhile isWordChar
    if run = [] then none
    else if hasPrefixL (' ' :: "is not set".data) (rest.drop run.length) then
      some ('B' :: 'R' :: '2' :: '_' :: run)
    else none
  else none

/-- Unanchored leftmost search for `# (BR2_[a-zA-Z0-9_]+) is not set`. -/
def findNotSet : List Char → Option (List Char)
  | [] => none
  | c :: cs =>
    match matchNotSetAt (c :: cs) with
    | some r => some r
    | none => findNotSet cs

/-- Rust `Symbol::from_str`: try the set form first, then the unset form. -/
def Symbol.fromStr (s : List Char) : Except Error Symbol :=
  match findSet s with
  | some (n, v) =>
    match SymbolValue.fromStr v with
    | .ok val => .ok ⟨n, val⟩
    | .error e => .error e
  | none =>
    match findNotSet s with
    | some n => .ok ⟨n, .bool false⟩
    | none => .error (.invalidSymbol s)

/-- Rust `defconfig::Defconfig`. -/
structure Defconfig where
  symbols : List Symbol
deriving DecidableEq, Repr

/-- Suffix checked by `Defconfig::from_reader` before handing a `#` line to
the symbol parser. -/
def isNotSetSuffix : List Char := "is not set".data

/-- Rust `Defconfig::from_reader`, taking the line list produced by the reader:
empty lines are skipped, `#` lines not ending in `"is not set"` are skipped,
every other line must parse as a symbol. -/
def Defconfig.fromLines : List (List Char) → Except Error Defconfig
  | [] => .ok ⟨[]⟩
  | l :: ls =>
    if l = [] then Defconfig.fromLines ls
    else if l.head? = some '#' ∧ hasSuffixL isNotSetSuffix l = false then
      Defconfig.fromLines ls
    else
      match Symbol.fromStr l with
      | .error e => .error e
      | .ok s =>
        match Defconfig.fromLines ls with
        | .error e => .error e
        | .ok d => .ok ⟨s :: d.symbols⟩

/-- The symbol name derived inside `Defconfig::selects`:
`format!("BR2_PACKAGE_{}", package).replace('-', "_").to_uppercase()`. -/
def selectsName (pkg : List Char) : List Char :=
  ((("BR2_PACKAGE_".data ++ pkg).map (fun c => if c = '-' then '_' else c)).map
    Char.toUpper)

/-- The per-symbol test of `Defconfig::selects`: matches the Rust
`match s.value { SymbolValue::Bool(b) if b => s.name == name, _ => false }`. -/
def selectsHit (name : List Char) (s : Symbol) : Bool :=
  match s.value with
  | .bool true => decide (s.name = name)
  | _ => false

/-- Rust `Defconfig::selects`: true iff any symbol with the derived name has a
boolean `true` value. -/
def Defconfig.selects (d : Defconfig) (pkg : List Char) : Bool :=
  d.symbols.any (selectsHit (selectsName pkg))

end defconfig

/-! ## `package.rs` -/

namespace package

/-- Rust `package::Error` (the `Io` variant is an I/O-boundary artefact). -/
inductive Error where
  | io : Error
  | invalidFilename : List Char → Error
  | invalidVariable : List Char → Error
  | missingVariable : List Char → Error
deriving DecidableEq, Repr

/-- Rust `package::canonicalize`: `name.to_uppercase().replace('-', "_")`. -/
def canonicalize (name : List Char) : List Char :=
  (name.map Char.toUpper).map (fun c => if c = '-' then '_' else c)

/-- The fixed property keys of `PackageInfo::from_reader`, in source order. -/
def propNames : List (List Char) :=
  ["version".data, "site".data, "source".data, "license".data,
    "dependencies".data]

/-- The `(prop_name, var_name)` pairs: `var_name = format!("{}_{}", stem, n.to_uppercase())`. -/
def varsNames (stem : List Char) : List (List Char × List Char) :=
  propNames.map (fun n => (n, stem ++ '_' :: n.map Char.toUpper))

/-- Rust `package::PackageInfo`.  The `properties` map is an insertion-ordered
association list with the newest binding first, so lookups see the latest
insertion, as with `HashMap::insert`. -/
structure PackageInfo where
  name : List Char
  properties : List (List Char × List Char)
deriving DecidableEq, Repr

/-- Lookup in the `properties` association list (newest binding wins). -/
def lookupProp (k : List Char) (m : List (List Char × List Char)) :
    Option (List Char) :=
  (m.find? (fun e => decide (e.1 = k))).map (fun e => e.2)

/-- The `for (prop_name, var_name) in &vars_names` loop body of
`PackageInfo::from_reader` applied to one line: a line starting with a
variable name must split on `'='` into exactly two fields, and then binds the
property to the trimmed second field. -/
def processLine (line : List Char) :
    List (List Char × List Char) → List (List Char × List Char) →
      Except Error (List (List Char × List Char))
  | [], props => .ok props
  | (propName, varName) :: vars, props =>
    if hasPrefixL varName line then
      match splitOnCharL '=' line with
      | [_, f1] => processLine line vars ((propName, trimL f1) :: props)
      | _ => .error (.invalidVariable line)
    else processLine line vars props

/-- The line loop of `PackageInfo::from_reader`. -/
def processLines (vars : List (List Char × List Char)) :
    List (List Char) → List (List Char × List Char) →
      Except Error (List (List Char × List Char))
  | [], props => .ok props
  | l :: ls, props =>
    match processLine l vars props with
    | .error e => .error e
    | .ok props' => processLines vars ls props'

/-- Rust `PackageInfo::from_reader`, over the reader's line list:
collect properties, then require the `version` key. -/
def PackageInfo.fromLines (name : List Char) (ls : List (List Char)) :
    Except Error PackageInfo :=
  match processLines (varsNames (canonicalize name)) ls [] with
  | .error e => .error e
  | .ok props =>
    if (lookupProp "version".data props).isSome then .ok ⟨name, props⟩
    else .error (.missingVariable "version".data)

/-- Rust `PackageInfo::version`: the accessor indexes the map directly and panics
when the key is missing; the panic is modelled by `none`. -/
def PackageInfo.version? (p : PackageInfo) : Option (List Char) :=
  lookupProp "version".data p.properties

/-- Rust `Path::file_name`: the component after the last `/`, ignoring
trailing slashes; `none` for an empty result or a `..` component.
(`.`-component normalisation of `std::path` is not modelled; no input of this
development exercises it.) -/
def fileName (p : List Char) : Option (List Char) :=
  let n := ((p.reverse.dropWhile (fun c => decide (c = '/'))).takeWhile
    (fun c => !(decide (c = '/')))).reverse
  if n = [] ∨ n = ['.', '.'] then none else some n

/-- Rust `Path::file_stem`: the file name with the extension after the last
dot removed; a lone leading dot does not start an extension. -/
def fileStem (p : List Char) : Option (List Char) :=
  (fileName p).map fun n =>
    let extRev := n.reverse.takeWhile (fun c => !(decide (c = '.')))
    if extRev.length = n.length then n
    else
      let stemRev := n.reverse.drop (extRev.length + 1)
      if stemRev = [] then n else stemRev.reverse

/-- Rust `PackageInfo::from_path`, with the filesystem as an explicit map from
paths to file contents (`none` = unreadable, surfacing as an I/O error). -/
def PackageInfo.fromPath (fs : List Char → Option (List Char))
    (p : List Char) : Except Error PackageInfo :=
  match fs p with
  | none => .error .io
  | some text =>
    match fileStem p with
    | none => .error (.invalidFilename p)
    | some name => PackageInfo.fromLines name (rustLines text)

/-- A decomposition of a text around the first regex match:
`text = pre ++ g1 ++ g2 ++ post` with `g1`, `g2` the capture groups. -/
structure VMatch where
  pre : List Char
  g1 : List Char
  g2 : List Char
  post : List Char
deriving DecidableEq, Repr

/-- One attempted match of regex `(STEM_VERSION\s*=\s*)(.+)` at the start of
`cs` (with `lit = STEM_VERSION`), returning `(group1, group2, rest)`.
The only backtracking the pattern admits is when everything after `=` is
whitespace: `\s*` then gives back its last non-newline character to `(.+)`. -/
def matchVerAt (lit cs : List Char) : Option (List Char × List Char × List Char) :=
  if hasPrefixL lit cs then
    match (cs.drop lit.length).dropWhile isWsChar with
    | '=' :: r1 =>
      match r1.dropWhile isWsChar with
      | [] =>
        match r1.reverse.dropWhile (fun c => decide (c = '\n')) with
        | [] => none
        | c :: restRev =>
          some (lit ++ (cs.drop lit.length).takeWhile isWsChar ++
              '=' :: restRev.reverse,
            [c], (r1.reverse.takeWhile (fun c => decide (c = '\n'))).reverse)
      | _ :: _ =>
        some (lit ++ (cs.drop lit.length).takeWhile isWsChar ++
            '=' :: r1.takeWhile isWsChar,
          (r1.dropWhile isWsChar).takeWhile (fun c => !(decide (c = '\n'))),
          (r1.dropWhile isWsChar).dropWhile (fun c => !(decide (c = '\n'))))
    | _ => none
  else none

/-- Unanchored leftmost search for `(STEM_VERSION\s*=\s*)(.+)`, returning the
match as a decomposition of the text. -/
def findVerMatch (lit : List Char) : List Char → Option VMatch
  | [] =>
    match matchVerAt lit [] with
    | some (g1, g2, rest) => some ⟨[], g1, g2, rest⟩
    | none => none
  | c :: cs =>
    match matchVerAt lit (c :: cs) with
    | some (g1, g2, rest) => some ⟨[], g1, g2, rest⟩
    | none => (findVerMatch lit cs).map fun m => ⟨c :: m.pre, m.g1, m.g2, m.post⟩

/-- The literal part of the pattern built by `replace_version`. -/
def verLit (name : List Char) : List Char :=
  canonicalize name ++ "_VERSION".data

/-- Rust `package::replace_version`: `Regex::replace` rewrites only the first
match, substituting group 2 with `version` and keeping group 1 verbatim;
with no match the text is returned unchanged. -/
def replaceVersion (text name version : List Char) : List Char :=
  match findVerMatch (verLit name) text with
  | some m => m.pre ++ m.g1 ++ version ++ m.post
  | none => text

/-- Rust `package::set_package_version`, over the explicit filesystem: derive the
stem, read the file, rewrite, write back.  Success returns the updated
filesystem. -/
def setPackageVersion (fs : List Char → Option (List Char)) (p version : List Char) :
    Except Error (List Char → Option (List Char)) :=
  match fileStem p with
  | none => .error (.invalidFilename p)
  | some name =>
    match fs p with
    | none => .error .io
    | some text =>
      .ok (fun q => if q = p then some (replaceVersion text name version) else fs q)

end package

/-! ## `buildroot.rs` -/

namespace buildroot

/-- The required subdirectories of a main Buildroot tree
(`BUILDROOT_SUBDIRS`). -/
def buildrootSubdirs : List (List Char) :=
  ["board".data, "boot".data, "configs".data, "fs".data, "linux".data,
    "package".data, "toolchain".data, "utils".data]

/-- Rust `buildroot::Error` (I/O-like variants carry no payload detail). -/
inductive Error where
  | build : Error
  | defconfigErr : defconfig.Error → Error
  | directoryTraversal : Error
  | invalidExternalTreeManifest : List Char → Error
  | invalidBuildrootTree : List Char → Error
  | io : Error
  | packageErr : package.Error → Error
  | unknownDefconfig : List Char → Error
  | unknownPackage : List Char → Error
deriving DecidableEq, Repr

/-- Rust `buildroot::ExternalTreeInfo`; `Default` gives two empty strings. -/
structure ExternalTreeInfo where
  name : List Char
  desc : List Char
deriving DecidableEq, Repr

/-- The line loop of `ExternalTreeInfo::from_path`: each line must split on
`':'` into exactly two fields whose key is `name` or `desc`; the trimmed
value overwrites the field. -/
def ExternalTreeInfo.fromLinesAux (path : List Char) :
    List (List Char) → ExternalTreeInfo → Except Error ExternalTreeInfo
  | [], info => .ok info
  | l :: ls, info =>
    match splitOnCharL ':' l with
    | [k, v] =>
      if k = "name".data then
        ExternalTreeInfo.fromLinesAux path ls ⟨trimL v, info.desc⟩
      else if k = "desc".data then
        ExternalTreeInfo.fromLinesAux path ls ⟨info.name, trimL v⟩
      else .error (.invalidExternalTreeManifest path)
    | _ => .error (.invalidExternalTreeManifest path)

/-- Rust `ExternalTreeInfo::from_path` given the manifest file's content
(reading the file is the I/O boundary). -/
def ExternalTreeInfo.fromContent (path text : List Char) :
    Except Error ExternalTreeInfo :=
  ExternalTreeInfo.fromLinesAux path (rustLines text) ⟨[], []⟩

/-- The filesystem visible to `buildroot.rs`:
directory predicates, a recursive walk (`walkdir`, may fail), and file
contents. -/
structure BrFS where
  isDir : List Char → Bool
  pathExists : List Char → Bool
  walk : List Char → Except Unit (List (List Char))
  readFile : List Char → Option (List Char)

/-- Rust `buildroot::BuildrootBaseTree`: the indexes map names to paths;
association lists with the newest binding first model the `HashMap`s. -/
structure BuildrootBaseTree where
  path : List Char
  defconfigs : List (List Char × List Char)
  packages : List (List Char × List Char)
deriving DecidableEq, Repr

/-- Rust `is_defconfig`: the entry's file name ends with `_defconfig`. -/
def isDefconfigEntry (p : List Char) : Bool :=
  match package.fileName p with
  | some n => hasSuffixL "_defconfig".data n
  | none => false

/-- Rust `is_package`: the entry's file name ends with `.mk`. -/
def isPackageEntry (p : List Char) : Bool :=
  match package.fileName p with
  | some n => hasSuffixL ".mk".data n
  | none => false

/-- Rust `BuildrootBaseTree::collect_defconfigs`: walk and index matching entries
by file name (later entries overwrite earlier ones, as `HashMap::insert`). -/
def collectDefconfigs (fs : BrFS) (p : List Char) :
    Except Error (List (List Char × List Char)) :=
  match fs.walk p with
  | .error _ => .error .directoryTraversal
  | .ok entries =>
    .ok (entries.foldl
      (fun acc e =>
        if isDefconfigEntry e then
          ((package.fileName e).getD [], e) :: acc
        else acc) [])

/-- Rust `BuildrootBaseTree::collect_packages`: walk and index `.mk` entries by
file stem (the `unwrap` on the stem cannot fail on a name ending in `.mk`). -/
def collectPackages (fs : BrFS) (p : List Char) :
    Except Error (List (List Char × List Char)) :=
  match fs.walk p with
  | .error _ => .error .directoryTraversal
  | .ok entries =>
    .ok (entries.foldl
      (fun acc e =>
        if isPackageEntry e then
          ((package.fileStem e).getD [], e) :: acc
        else acc) [])

/-- Rust `BuildrootBaseTree::from_path`. -/
def BuildrootBaseTree.fromPath (fs : BrFS) (p : List Char) :
    Except Error BuildrootBaseTree :=
  let cfgDir := p ++ "/configs".data
  match (if fs.pathExists cfgDir then collectDefconfigs fs cfgDir else .ok []) with
  | .error e => .error e
  | .ok dcs =>
    match collectPackages fs (p ++ "/package".data) with
    | .error e => .error e
    | .ok pkgs => .ok ⟨p, dcs, pkgs⟩

/-- Rust `buildroot::BuildrootTree`. -/
inductive BuildrootTree where
  | main : BuildrootBaseTree → BuildrootTree
  | external : List Char → BuildrootBaseTree → BuildrootTree
deriving DecidableEq, Repr

/-- Rust `BuildrootTree::main_from_path`: require every fixed subdirectory, then
index the tree. -/
def BuildrootTree.mainFromPath (fs : BrFS) (p : List Char) :
    Except Error BuildrootTree :=
  if buildrootSubdirs.any (fun d => !(fs.isDir (p ++ '/' :: d))) then
    .error (.invalidBuildrootTree p)
  else
    match BuildrootBaseTree.fromPath fs p with
    | .error e => .error e
    | .ok t => .ok (.main t)

/-- Rust `BuildrootTree::external_from_path`: read and parse `external.desc`,
then index the tree. -/
def BuildrootTree.externalFromPath (fs : BrFS) (p : List Char) :
    Except Error BuildrootTree :=
  let descPath := p ++ "/external.desc".data
  match fs.readFile descPath with
  | none => .error .io
  | some text =>
    match ExternalTreeInfo.fromContent descPath text with
    | .error e => .error e
    | .ok info =>
      match BuildrootBaseTree.fromPath fs p with
      | .error e => .error e
      | .ok t => .ok (.external info.name t)

/-- Rust `buildroot::BuildrootTreePath`. -/
inductive BuildrootTreePath where
  | main : List Char → BuildrootTreePath
  | external : List Char → BuildrootTreePath
deriving DecidableEq, Repr

/-- Rust `BuildrootTree::from_path`. -/
def BuildrootTree.fromPath (fs : BrFS) : BuildrootTreePath → Except Error BuildrootTree
  | .main p => BuildrootTree.mainFromPath fs p
  | .external p => BuildrootTree.externalFromPath fs p

/-- Rust `buildroot::Buildroot`. -/
structure Buildroot where
  trees : List BuildrootTree
deriving DecidableEq, Repr

/-- The package index of one tree. -/
def treePackages : BuildrootTree → List (List Char × List Char)
  | .main t => t.packages
  | .external _ t => t.packages

/-- Rust `Buildroot::packages`: iterate the trees in order, flattening their
indexes. -/
def Buildroot.packagesList (br : Buildroot) : List (List Char × List Char) :=
  (br.trees.map treePackages).flatten

/-- The tail of `Buildroot::get_package_version` once the path is resolved:
parse the descriptor at `p` and return its version (the panicking
`version()` accessor is modelled by the `Option`). -/
def readPackageVersion (fs : List Char → Option (List Char)) (p : List Char) :
    Except Error (Option (List Char)) :=
  match package.PackageInfo.fromPath fs p with
  | .error e => .error (.packageErr e)
  | .ok pkg => .ok pkg.version?

/-- Rust `Buildroot::get_package_version`: find the first index entry for `name`
across the trees in order, read and parse the descriptor there, and return
its version. -/
def Buildroot.getPackageVersion (fs : List Char → Option (List Char))
    (br : Buildroot) (name : List Char) :
    Except Error (Option (List Char)) :=
  match br.packagesList.find? (fun e => decide (e.1 = name)) with
  | none => .error (.unknownPackage name)
  | some entry => readPackageVersion fs entry.2

/-- Rust `Buildroot::main_tree_path`: the source indexes `trees[0]` and hits
`unreachable!()` when it is not the `Main` variant; both panics are modelled
by `none`. -/
def Buildroot.mainTreePath? (br : Buildroot) : Option (List Char) :=
  match br.trees.head? with
  | some (.main t) => some t.path
  | _ => none

/-- Rust `buildroot::BuildrootExplorer`. -/
structure BuildrootExplorer where
  paths : List BuildrootTreePath
deriving DecidableEq, Repr

/-- Rust `BuildrootExplorer::new`. -/
def BuildrootExplorer.new (p : List Char) : BuildrootExplorer :=
  ⟨[.main p]⟩

/-- Rust `BuildrootExplorer::external_tree`: push an external path. -/
def BuildrootExplorer.externalTree (e : BuildrootExplorer) (p : List Char) :
    BuildrootExplorer :=
  ⟨e.paths ++ [.external p]⟩

/-- Rust `collect::<Result<Vec<_>, _>>`: map, stopping at the first error. -/
def collectExcept (f : BuildrootTreePath → Except Error BuildrootTree) :
    List BuildrootTreePath → Except Error (List BuildrootTree)
  | [] => .ok []
  | p :: ps =>
    match f p with
    | .error e => .error e
    | .ok t =>
      match collectExcept f ps with
      | .error e => .error e
      | .ok ts => .ok (t :: ts)

/-- Rust `BuildrootExplorer::explore`. -/
def BuildrootExplorer.explore (fs : BrFS) (e : BuildrootExplorer) :
    Except Error Buildroot :=
  match collectExcept (BuildrootTree.fromPath fs) e.paths with
  | .error er => .error er
  | .ok ts => .ok ⟨ts⟩

end buildroot

/-! ### Descriptor text shapes used to state the round-trip claim -/

/-- A declaration line `STEM_VERSION<sp1>=<sp2><u>`. -/
def versionLineShape (name sp1 sp2 u : List Char) : List Char :=
  package.verLit name ++ (sp1 ++ '=' :: (sp2 ++ u))

/-- A descriptor text: a version declaration line followed by further
newline-terminated lines. -/
def descriptorShape (name sp1 sp2 u : List Char)
    (rest : List (List Char)) : List Char :=
  package.verLit name ++ (sp1 ++ '=' :: (sp2 ++ (u ++ '\n' :: joinNl rest)))

/-! ### Spec-side predicates

These definitions follow claim wordings (not the source); they exist only to
be compared with the behaviour of the embedded code. -/

/-- Spec-side predicate for the amended claim C7: a manifest line is
acceptable iff it splits on `':'` into exactly two fields whose key is
`name` or `desc`. -/
def manifestLineOk (l : List Char) : Bool :=
  match splitOnCharL ':' l with
  | [k, _] => decide (k = "name".data) || decide (k = "desc".data)
  | _ => false

/-- Spec-side predicate following the wording of claim C1: a line setting the
symbol `BR2_PACKAGE_<CANON(name)>` to `y` is present and no later line for
that same symbol name sets it to false. -/
def selectedWithNoLaterUnset (L : List (List Char)) (pkg : List Char) : Prop :=
  ∃ i : Fin L.length,
    defconfig.Symbol.fromStr (L.get i) =
      .ok ⟨defconfig.selectsName pkg, .bool true⟩ ∧
    ∀ j : Fin L.length, (i : Nat) < (j : Nat) →
      ¬ (defconfig.Symbol.fromStr (L.get j) =
        .ok ⟨defconfig.selectsName pkg, .bool false⟩)

instance (L : List (List Char)) (pkg : List Char) :
    Decidable (selectedWithNoLaterUnset L pkg) := by
  unfold selectedWithNoLaterUnset
  infer_instance

/-! ## Theorems -/

/-! ### Claims C1, C2, C3 (`defconfig.rs`) -/

theorem selectsHit_eq_true_iff (n : List Char) (s : defconfig.Symbol) :
    defconfig.selectsHit n s = true ↔ s = ⟨n, .bool true⟩ := by
  obtain ⟨nm, v⟩ := s
  cases v with
  | bool b => cases b <;> simp [defconfig.selectsHit]
  | string t => simp [defconfig.selectsHit]

/-- Claim C1, counterexample: in the preset text `BR2_PACKAGE_FOO=y` followed
by `# BR2_PACKAGE_FOO is not set`, a later line sets the symbol to false, so
the claim requires `selects("foo")` to be false; the code returns true. -/
theorem claim_c1_counterexample :
    ((defconfig.Defconfig.fromLines
        ["BR2_PACKAGE_FOO=y".data, "# BR2_PACKAGE_FOO is not set".data]).toOption.map
      (fun d => d.selects "foo".data) = some true) ∧
    ¬ selectedWithNoLaterUnset
        ["BR2_PACKAGE_FOO=y".data, "# BR2_PACKAGE_FOO is not set".data]
        "foo".data := by
  decide

/-- Claim C1 as amended: for every successfully parsed preset,
`selects(name)` is true iff some non-skipped line parses to a symbol named
`BR2_PACKAGE_<CANON(name)>` with boolean value true — a later line setting
the same symbol to false does not cancel it. -/
theorem claim_c1_amended (L : List (List Char)) (pkg : List Char)
    (d : defconfig.Defconfig) (h : defconfig.Defconfig.fromLines L = .ok d) :
    d.selects pkg = true ↔
      ∃ l ∈ L, l ≠ [] ∧
        ¬ (l.head? = some '#' ∧ hasSuffixL defconfig.isNotSetSuffix l = false) ∧
        defconfig.Symbol.fromStr l =
          .ok ⟨defconfig.selectsName pkg, .bool true⟩ := by
  induction L generalizing d with
  | nil =>
    simp only [defconfig.Defconfig.fromLines, Except.ok.injEq] at h
    subst h
    simp [defconfig.Defconfig.selects]
  | cons x xs ih =>
    rw [defconfig.Defconfig.fromLines] at h
    by_cases h1 : x = []
    · rw [if_pos h1] at h
      rw [ih d h]
      constructor
      · rintro ⟨l, hl, hrest⟩
        exact ⟨l, List.mem_cons_of_mem _ hl, hrest⟩
      · rintro ⟨l, hl, hne, hrest⟩
        rcases List.mem_cons.mp hl with rfl | hl'
        · exact absurd h1 hne
        · exact ⟨l, hl', hne, hrest⟩
    · rw [if_neg h1] at h
      by_cases h2 : x.head? = some '#' ∧ hasSuffixL defconfig.isNotSetSuffix x = false
      · rw [if_pos h2] at h
        rw [ih d h]
        constructor
        · rintro ⟨l, hl, hrest⟩
          exact ⟨l, List.mem_cons_of_mem _ hl, hrest⟩
        · rintro ⟨l, hl, hne, hnc, hrest⟩
          rcases List.mem_cons.mp hl with rfl | hl'
          · exact absurd h2 hnc
          · exact ⟨l, hl', hne, hnc, hrest⟩
      · rw [if_neg h2] at h
        cases hs : defconfig.Symbol.fromStr x with
        | error e => rw [hs] at h; simp at h
        | ok s =>
          rw [hs] at h
          cases hd : defconfig.Defconfig.fromLines xs with
          | error e => rw [hd] at h; simp at h
          | ok d' =>
            rw [hd] at h
            simp only [Except.ok.injEq] at h
            subst h
            have hsel : (defconfig.Defconfig.mk (s :: d'.symbols)).selects pkg =
                (defconfig.selectsHit (defconfig.selectsName pkg) s ||
                  d'.selects pkg) := rfl
            rw [hsel, Bool.or_eq_true, selectsHit_eq_true_iff, ih d' hd]
            constructor
            · rintro (rfl | ⟨l, hl, hrest⟩)
              · exact ⟨x, List.mem_cons_self x xs, h1, h2, hs⟩
              · exact ⟨l, List.mem_cons_of_mem _ hl, hrest⟩
            · rintro ⟨l, hl, hne, hnc, htgt⟩
              rcases List.mem_cons.mp hl with rfl | hl'
              · left
                rw [hs] at htgt
                exact Except.ok.inj htgt
              · right
                exact ⟨l, hl', hne, hnc, htgt⟩

/-- Claim C1, witness: a preset consisting of the single line
`BR2_PACKAGE_FOO=y` selects `foo`, and the equivalence holds there. -/
theorem claim_c1_witness :
    (defconfig.Defconfig.mk
        [⟨"BR2_PACKAGE_FOO".data, .bool true⟩]).selects "foo".data = true ↔
      ∃ l ∈ ["BR2_PACKAGE_FOO=y".data], l ≠ [] ∧
        ¬ (l.head? = some '#' ∧ hasSuffixL defconfig.isNotSetSuffix l = false) ∧
        defconfig.Symbol.fromStr l =
          .ok ⟨defconfig.selectsName "foo".data, .bool true⟩ :=
  claim_c1_amended ["BR2_PACKAGE_FOO=y".data] "foo".data
    ⟨[⟨"BR2_PACKAGE_FOO".data, .bool true⟩]⟩ (by decide)

/-- Claim C2, counterexample: the line `# BR2_FOO is  not set` (two spaces
before `not`) starts with `#`, resembles the unset form but does not match it
(the symbol parser rejects it), yet `from_reader` silently skips it and
succeeds with no symbols instead of failing. -/
theorem claim_c2_counterexample :
    defconfig.Defconfig.fromLines ["# BR2_FOO is  not set".data] = .ok ⟨[]⟩ ∧
    "# BR2_FOO is  not set".data.head? = some '#' ∧
    defconfig.Symbol.fromStr "# BR2_FOO is  not set".data =
      .error (.invalidSymbol "# BR2_FOO is  not set".data) := by
  decide

/-- Claim C2 as amended: a line starting with `#` that ends with the exact
suffix `is not set` but is rejected by the symbol parser makes the whole
parse fail; `#` lines not ending with that suffix are silently skipped. -/
theorem claim_c2_amended (L : List (List Char)) (l : List Char)
    (e : defconfig.Error) (hmem : l ∈ L) (hhash : l.head? = some '#')
    (hsuf : hasSuffixL defconfig.isNotSetSuffix l = true)
    (hfail : defconfig.Symbol.fromStr l = .error e) :
    ∃ e', defconfig.Defconfig.fromLines L = .error e' := by
  induction L with
  | nil => cases hmem
  | cons x xs ih =>
    rw [defconfig.Defconfig.fromLines]
    rcases List.mem_cons.mp hmem with rfl | hmem'
    · have hne : ¬ l = [] := by
        intro h0
        rw [h0] at hhash
        cases hhash
      have hnc : ¬ (l.head? = some '#' ∧
          hasSuffixL defconfig.isNotSetSuffix l = false) := by
        rintro ⟨-, hs0⟩
        rw [hsuf] at hs0
        cases hs0
      rw [if_neg hne, if_neg hnc, hfail]
      exact ⟨e, rfl⟩
    · by_cases h1 : x = []
      · rw [if_pos h1]
        exact ih hmem'
      · rw [if_neg h1]
        by_cases h2 : x.head? = some '#' ∧
            hasSuffixL defconfig.isNotSetSuffix x = false
        · rw [if_pos h2]
          exact ih hmem'
        · rw [if_neg h2]
          cases hs : defconfig.Symbol.fromStr x with
          | error e2 => exact ⟨e2, rfl⟩
          | ok s =>
            obtain ⟨e', he'⟩ := ih hmem'
            rw [he']
            exact ⟨e', rfl⟩

/-- Claim C2, witness: the line `#  BR2_FOO is not set` (two spaces after
`#`) ends with the exact suffix but fails the symbol parser, so the whole
parse fails. -/
theorem claim_c2_witness :
    ∃ e', defconfig.Defconfig.fromLines ["#  BR2_FOO is not set".data] =
      .error e' :=
  claim_c2_amended ["#  BR2_FOO is not set".data] "#  BR2_FOO is not set".data
    (.invalidSymbol "#  BR2_FOO is not set".data)
    (by decide) (by decide) (by decide) (by decide)

/-- Claim C3, counterexample: on the value `""a""`, the code strips all
leading and trailing quotes and yields `String("a")`, whereas the claim
promises exactly the text between the one outer pair, `String("\"a\"")`. -/
theorem claim_c3_counterexample :
    defconfig.SymbolValue.fromStr "\"\"a\"\"".data = .ok (.string "a".data) ∧
    "a".data ≠ "\"a\"".data := by
  decide

/-- Claim C3 as amended: a value that starts and ends with a double quote
(also a single quote character) yields `String` of the value with all leading
and all trailing quotes removed; exactly `y` yields `Bool(true)`, exactly `n`
yields `Bool(false)`, and every other value fails with `InvalidValue`. -/
theorem claim_c3_amended (s : List Char) :
    ((∃ t, defconfig.SymbolValue.fromStr s = .ok (.string t)) ↔
      (s.head? = some '"' ∧ s.getLast? = some '"')) ∧
    (s.head? = some '"' ∧ s.getLast? = some '"' →
      defconfig.SymbolValue.fromStr s =
        .ok (.string (((s.dropWhile (fun c => c = '"')).reverse.dropWhile
          (fun c => c = '"')).reverse))) ∧
    (defconfig.SymbolValue.fromStr s = .ok (.bool true) ↔ s = ['y']) ∧
    (defconfig.SymbolValue.fromStr s = .ok (.bool false) ↔ s = ['n']) ∧
    (¬ (s.head? = some '"' ∧ s.getLast? = some '"') → s ≠ ['y'] → s ≠ ['n'] →
      defconfig.SymbolValue.fromStr s = .error (.invalidValue s)) := by
  by_cases hq : s.head? = some '"' ∧ s.getLast? = some '"'
  · have hy : s ≠ ['y'] := by
      rintro rfl
      simp at hq
    have hn : s ≠ ['n'] := by
      rintro rfl
      simp at hq
    have he : defconfig.SymbolValue.fromStr s =
        .ok (.string (((s.dropWhile (fun c => c = '"')).reverse.dropWhile
          (fun c => c = '"')).reverse)) := by
      rw [defconfig.SymbolValue.fromStr, if_pos hq]
    refine ⟨?_, fun _ => he, ?_, ?_, ?_⟩
    · simp [he, hq]
    · simp [he, hy]
    · simp [he, hn]
    · intro h0
      exact absurd hq h0
  · have he0 : defconfig.SymbolValue.fromStr s =
        (if s = ['y'] then .ok (.bool true)
         else if s = ['n'] then .ok (.bool false)
         else .error (.invalidValue s)) := by
      rw [defconfig.SymbolValue.fromStr, if_neg hq]
    by_cases hy : s = ['y']
    · subst hy
      rw [if_pos rfl] at he0
      refine ⟨?_, fun h0 => absurd h0 hq, ?_, ?_, ?_⟩
      · simp [he0, hq]
      · simp [he0]
      · simp [he0]
      · intro _ h0
        exact absurd rfl h0
    · rw [if_neg hy] at he0
      by_cases hn : s = ['n']
      · subst hn
        rw [if_pos rfl] at he0
        refine ⟨?_, fun h0 => absurd h0 hq, ?_, ?_, ?_⟩
        · simp [he0, hq]
        · simp [he0, hy]
        · simp [he0]
        · intro _ _ h0
          exact absurd rfl h0
      · rw [if_neg hn] at he0
        refine ⟨?_, fun h0 => absurd h0 hq, ?_, ?_, ?_⟩
        · simp [he0, hq]
        · simp [he0, hy]
        · simp [he0, hn]
        · intro _ _ _
          exact he0

/-- Claim C3, witness: the quoted value `"1.2.3"` parses to
`String("1.2.3")` through the amended characterisation. -/
theorem claim_c3_witness :
    defconfig.SymbolValue.fromStr "\"1.2.3\"".data = .ok (.string "1.2.3".data) :=
  ((claim_c3_amended "\"1.2.3\"".data).2.1 (by decide)).trans (by decide)

/-! ### Claims C4, C5, C6, C10 (`package.rs`) -/

theorem hasPrefixL_iff (pat l : List Char) :
    hasPrefixL pat l = true ↔ ∃ r, l = pat ++ r := by
  induction pat generalizing l with
  | nil => simp [hasPrefixL]
  | cons a pat ih =>
    cases l with
    | nil => simp [hasPrefixL]
    | cons b l =>
      simp only [hasPrefixL, Bool.and_eq_true, decide_eq_true_eq, ih,
        List.cons_append, List.cons.injEq]
      constructor
      · rintro ⟨rfl, r, rfl⟩
        exact ⟨r, rfl, rfl⟩
      · rintro ⟨r, rfl, rfl⟩
        exact ⟨rfl, r, rfl⟩

/-- Soundness of one pattern-match attempt: the returned groups glue back to
the input. -/
theorem matchVerAt_eq_some (lit cs g1 g2 rest : List Char)
    (h : package.matchVerAt lit cs = some (g1, g2, rest)) :
    cs = g1 ++ g2 ++ rest := by
  rw [package.matchVerAt] at h
  split at h
  case isFalse => cases h
  case isTrue hp =>
    obtain ⟨r, rfl⟩ := (hasPrefixL_iff lit cs).mp hp
    rw [List.drop_left] at h
    have hr : r = r.takeWhile isWsChar ++ r.dropWhile isWsChar :=
      (List.takeWhile_append_dropWhile ..).symm
    split at h
    case h_2 => cases h
    case h_1 r1 heq =>
      have hr1 : r1 = r1.takeWhile isWsChar ++ r1.dropWhile isWsChar :=
        (List.takeWhile_append_dropWhile ..).symm
      split at h
      · -- everything after `=` is whitespace: the backtracking branch
        split at h
        case h_1 => cases h
        case h_2 c restRev heq3 =>
          rw [Option.some.injEq, Prod.mk.injEq, Prod.mk.injEq] at h
          obtain ⟨hg1, hg2, hrest⟩ := h
          have hr1r : r1.reverse = r1.reverse.takeWhile
                (fun c => decide (c = '\n')) ++ (c :: restRev) := by
            conv_lhs => rw [← List.takeWhile_append_dropWhile
              (p := fun c => decide (c = '\n')) (l := r1.reverse)]
            rw [heq3]
          have hr1' : r1 = restRev.reverse ++ c ::
              (r1.reverse.takeWhile (fun c => decide (c = '\n'))).reverse := by
            have := congrArg List.reverse hr1r
            simpa [List.reverse_append] using this
          subst hg1 hg2 hrest
          conv_lhs => rw [hr, heq, hr1']
          simp [List.append_assoc]
      · -- a non-whitespace character follows: the greedy branch
        rw [Option.some.injEq, Prod.mk.injEq, Prod.mk.injEq] at h
        obtain ⟨hg1, hg2, hrest⟩ := h
        have hr2 : r1.dropWhile isWsChar =
            (r1.dropWhile isWsChar).takeWhile (fun c => !(decide (c = '\n'))) ++
              (r1.dropWhile isWsChar).dropWhile (fun c => !(decide (c = '\n'))) :=
          (List.takeWhile_append_dropWhile ..).symm
        subst hg1 hg2 hrest
        conv_lhs => rw [hr, heq, hr1, hr2]
        simp [List.append_assoc]

/-- Soundness of the leftmost search: the returned decomposition glues back
to the text, the groups match at the decomposition point, and no earlier
position matches. -/
theorem findVerMatch_eq_some (lit : List Char) (text : List Char)
    (m : package.VMatch) (h : package.findVerMatch lit text = some m) :
    text = m.pre ++ m.g1 ++ m.g2 ++ m.post ∧
    package.matchVerAt lit (m.g1 ++ m.g2 ++ m.post) =
      some (m.g1, m.g2, m.post) ∧
    ∀ i, i < m.pre.length → package.matchVerAt lit (text.drop i) = none := by
  induction text generalizing m with
  | nil =>
    rw [package.findVerMatch] at h
    cases hm : package.matchVerAt lit [] with
    | none => rw [hm] at h; cases h
    | some g =>
      obtain ⟨g1, g2, rest⟩ := g
      rw [hm] at h
      rw [Option.some.injEq] at h
      subst h
      have hglue := matchVerAt_eq_some lit [] g1 g2 rest hm
      refine ⟨hglue, ?_, ?_⟩
      · rw [← hglue]
        exact hm
      · intro i hi
        cases hi
  | cons c cs ih =>
    rw [package.findVerMatch] at h
    cases hm : package.matchVerAt lit (c :: cs) with
    | some g =>
      obtain ⟨g1, g2, rest⟩ := g
      rw [hm, Option.some.injEq] at h
      subst h
      have hglue := matchVerAt_eq_some lit (c :: cs) g1 g2 rest hm
      refine ⟨hglue, ?_, ?_⟩
      · rw [← hglue]
        exact hm
      · intro i hi
        cases hi
    | none =>
      rw [hm] at h
      cases hf : package.findVerMatch lit cs with
      | none => rw [hf] at h; cases h
      | some m' =>
        rw [hf] at h
        obtain ⟨hglue, hat, hfirst⟩ := ih m' hf
        have h' : (⟨c :: m'.pre, m'.g1, m'.g2, m'.post⟩ : package.VMatch) = m := by
          simpa using h
        subst h'
        refine ⟨by rw [hglue]; rfl, hat, ?_⟩
        intro i hi
        cases i with
        | zero => exact hm
        | succ j =>
          exact hfirst j (Nat.lt_of_succ_lt_succ hi)

/-- Claim C4, counterexample: with component `foo`, on a file whose first
line declares the longer variable `BARFOO_VERSION`, the unanchored pattern
first matches inside that longer name, so its line is rewritten — it is not
left byte-identical as the claim states. -/
theorem claim_c4_counterexample :
    package.replaceVersion "BARFOO_VERSION = 1.0\nFOO_VERSION = 2.0\n".data
        "foo".data "9".data =
      "BARFOO_VERSION = 9\nFOO_VERSION = 2.0\n".data ∧
    (package.replaceVersion "BARFOO_VERSION = 1.0\nFOO_VERSION = 2.0\n".data
        "foo".data "9".data).take 18 ≠
      ("BARFOO_VERSION = 1.0\nFOO_VERSION = 2.0\n".data).take 18 := by
  decide

/-- Claim C4 as amended: `set_package_version` rewrites only the first match
of the unanchored pattern `STEM_VERSION\s*=\s*(.+)` — a match that may begin
inside a longer variable name ending in `STEM_VERSION` — replacing group 2
with the new version, preserving group 1 verbatim, and leaving every byte
outside the first match unchanged (no earlier position matches). -/
theorem claim_c4_amended (text name version : List Char) (m : package.VMatch)
    (h : package.findVerMatch (package.verLit name) text = some m) :
    text = m.pre ++ m.g1 ++ m.g2 ++ m.post ∧
    package.replaceVersion text name version =
      m.pre ++ m.g1 ++ version ++ m.post ∧
    (∀ i, i < m.pre.length →
      package.matchVerAt (package.verLit name) (text.drop i) = none) := by
  obtain ⟨hglue, hat, hfirst⟩ := findVerMatch_eq_some (package.verLit name) text m h
  refine ⟨hglue, ?_, hfirst⟩
  rw [package.replaceVersion, h]

/-- Claim C4, witness: on `BARFOO_VERSION = 1.0\nX` the first match is inside
the longer name; the decomposition, the rewrite and the no-earlier-match
property are all checked concretely. -/
theorem claim_c4_witness :
    "BARFOO_VERSION = 1.0\nX".data =
      (⟨"BAR".data, "FOO_VERSION = ".data, "1.0".data,
        "\nX".data⟩ : package.VMatch).pre ++
        (⟨"BAR".data, "FOO_VERSION = ".data, "1.0".data,
          "\nX".data⟩ : package.VMatch).g1 ++
        (⟨"BAR".data, "FOO_VERSION = ".data, "1.0".data,
          "\nX".data⟩ : package.VMatch).g2 ++
        (⟨"BAR".data, "FOO_VERSION = ".data, "1.0".data,
          "\nX".data⟩ : package.VMatch).post ∧
    package.replaceVersion "BARFOO_VERSION = 1.0\nX".data "foo".data "9".data =
      (⟨"BAR".data, "FOO_VERSION = ".data, "1.0".data,
        "\nX".data⟩ : package.VMatch).pre ++
        (⟨"BAR".data, "FOO_VERSION = ".data, "1.0".data,
          "\nX".data⟩ : package.VMatch).g1 ++ "9".data ++
        (⟨"BAR".data, "FOO_VERSION = ".data, "1.0".data,
          "\nX".data⟩ : package.VMatch).post ∧
    (∀ i, i < (⟨"BAR".data, "FOO_VERSION = ".data, "1.0".data,
        "\nX".data⟩ : package.VMatch).pre.length →
      package.matchVerAt (package.verLit "foo".data)
        ("BARFOO_VERSION = 1.0\nX".data.drop i) = none) :=
  claim_c4_amended "BARFOO_VERSION = 1.0\nX".data "foo".data "9".data
    ⟨"BAR".data, "FOO_VERSION = ".data, "1.0".data, "\nX".data⟩ (by decide)

/-- Claim C6 (confirmed): when the pattern has no match in the file's text,
`set_package_version` succeeds and the resulting filesystem is unchanged
everywhere (the file is rewritten with its old content). -/
theorem claim_c6 (fs : List Char → Option (List Char))
    (p version name text : List Char)
    (hstem : package.fileStem p = some name) (hread : fs p = some text)
    (hnomatch : package.findVerMatch (package.verLit name) text = none) :
    ∃ fs', package.setPackageVersion fs p version = .ok fs' ∧
      fs' p = some text ∧ ∀ q, fs' q = fs q := by
  have hrw : package.replaceVersion text name version = text := by
    rw [package.replaceVersion, hnomatch]
  have hset : package.setPackageVersion fs p version =
      .ok (fun q => if q = p then
        some (package.replaceVersion text name version) else fs q) := by
    rw [package.setPackageVersion, hstem, hread]
  refine ⟨_, hset, ?_, ?_⟩
  · simp [hrw]
  · intro q
    by_cases hq : q = p
    · subst hq
      simp [hrw, hread]
    · simp [hq]

/-- Claim C6, witness: rewriting `foo`'s version in a file that only declares
`BAR_VERSION` succeeds and changes nothing. -/
theorem claim_c6_witness :
    ∃ fs', package.setPackageVersion
        (fun q => if q = "pkg/foo.mk".data then
          some "BAR_VERSION = 1.0\n".data else none)
        "pkg/foo.mk".data "9".data = .ok fs' ∧
      fs' "pkg/foo.mk".data = some "BAR_VERSION = 1.0\n".data ∧
      ∀ q, fs' q = (fun q => if q = "pkg/foo.mk".data then
        some "BAR_VERSION = 1.0\n".data else none) q :=
  claim_c6 _ "pkg/foo.mk".data "9".data "foo".data "BAR_VERSION = 1.0\n".data
    (by decide) (by decide) (by decide)

/-- Claim C10 (confirmed): a successfully parsed `PackageInfo` always has the
`version` key in its properties, so the directly-indexing `version()`
accessor cannot panic on it. -/
theorem claim_c10 (name : List Char) (ls : List (List Char))
    (info : package.PackageInfo)
    (h : package.PackageInfo.fromLines name ls = .ok info) :
    info.version?.isSome := by
  rw [package.PackageInfo.fromLines] at h
  cases hp : package.processLines
      (package.varsNames (package.canonicalize name)) ls [] with
  | error e => simp only [hp] at h; cases h
  | ok props =>
    simp only [hp] at h
    by_cases hv : (package.lookupProp "version".data props).isSome
    · rw [if_pos hv] at h
      obtain rfl := Except.ok.inj h
      exact hv
    · rw [if_neg hv] at h
      cases h

/-- Claim C10, witness: the parsed descriptor `FOO_VERSION = 1.2.3` has a
present version. -/
theorem claim_c10_witness :
    (package.PackageInfo.mk "foo".data
      [("version".data, "1.2.3".data)]).version?.isSome :=
  claim_c10 "foo".data ["FOO_VERSION = 1.2.3".data] _ (by decide)

/-! ### Helper lemmas for the round-trip claim C5 -/

theorem takeWhile_append_of_all (p : Char → Bool) (l m : List Char)
    (h : ∀ c ∈ l, p c = true) : (l ++ m).takeWhile p = l ++ m.takeWhile p := by
  induction l with
  | nil => simp
  | cons c l ih =>
    rw [List.cons_append, List.takeWhile_cons, h c (List.mem_cons_self c l),
      if_pos rfl, List.cons_append,
      ih (fun x hx => h x (List.mem_cons_of_mem c hx))]

theorem dropWhile_append_of_all (p : Char → Bool) (l m : List Char)
    (h : ∀ c ∈ l, p c = true) : (l ++ m).dropWhile p = m.dropWhile p := by
  induction l with
  | nil => simp
  | cons c l ih =>
    rw [List.cons_append, List.dropWhile_cons, h c (List.mem_cons_self c l)]
    exact ih (fun x hx => h x (List.mem_cons_of_mem c hx))

theorem dropWhile_cons_neg (p : Char → Bool) (c : Char) (l : List Char)
    (h : p c = false) : (c :: l).dropWhile p = c :: l := by
  rw [List.dropWhile_cons, h]
  simp

theorem takeWhile_cons_neg (p : Char → Bool) (c : Char) (l : List Char)
    (h : p c = false) : (c :: l).takeWhile p = [] := by
  rw [List.takeWhile_cons, h]
  simp

theorem hasPrefixL_append_same (s x y : List Char) :
    hasPrefixL (s ++ x) (s ++ y) = hasPrefixL x y := by
  induction s with
  | nil => rfl
  | cons a s ih => simp [hasPrefixL, ih]

theorem splitOnCharL_of_not_mem (sep : Char) (l : List Char) (h : sep ∉ l) :
    splitOnCharL sep l = [l] := by
  induction l with
  | nil => rfl
  | cons c l ih =>
    have hc : ¬ c = sep := fun h0 => h (h0 ▸ List.mem_cons_self c l)
    rw [splitOnCharL, if_neg hc, ih (fun hm => h (List.mem_cons_of_mem c hm))]

theorem splitOnCharL_pair (sep : Char) (a b : List Char) (ha : sep ∉ a)
    (hb : sep ∉ b) : splitOnCharL sep (a ++ sep :: b) = [a, b] := by
  induction a with
  | nil =>
    rw [List.nil_append, splitOnCharL, if_pos rfl, splitOnCharL_of_not_mem sep b hb]
  | cons c a ih =>
    have hc : ¬ c = sep := fun h0 => ha (h0 ▸ List.mem_cons_self c a)
    rw [List.cons_append, splitOnCharL, if_neg hc,
      ih (fun hm => ha (List.mem_cons_of_mem c hm))]

theorem trimL_spaces (sp v : List Char) (hsp : ∀ c ∈ sp, c = ' ')
    (hA : v.dropWhile isWsChar = v)
    (hB : v.reverse.dropWhile isWsChar = v.reverse) :
    trimL (sp ++ v) = v := by
  rw [trimL, dropWhile_append_of_all _ _ _
    (fun c hc => by rw [hsp c hc]; rfl), hA, hB, List.reverse_reverse]

theorem head?_not_of_dropWhile_eq (p : Char → Bool) (l : List Char)
    (h : l.dropWhile p = l) : ∀ c, l.head? = some c → p c = false := by
  intro c hc
  cases l with
  | nil => cases hc
  | cons a t =>
    obtain rfl : a = c := by simpa using hc
    have := List.dropWhile_eq_self_iff.mp h (by simp)
    simpa using this

theorem finishLine_reverse (l : List Char) (h : l.getLast? ≠ some '\r') :
    finishLine l.reverse = l := by
  cases hl : l.reverse with
  | nil =>
    have : l = [] := by simpa using congrArg List.reverse hl
    subst this
    rfl
  | cons c rest =>
    have hc : ¬ c = '\r' := by
      intro h0
      subst h0
      apply h
      rw [← List.head?_reverse, hl]
      rfl
    have hrr : (c :: rest).reverse = l := by
      rw [← hl, List.reverse_reverse]
    unfold finishLine
    split
    · rename_i a heq
      cases heq
      exact absurd rfl hc
    · exact hrr

theorem linesAux_append_nl (a : List Char) (ha : ∀ c ∈ a, c ≠ '\n') :
    ∀ acc b, linesAux acc (a ++ '\n' :: b) =
      finishLine (a.reverse ++ acc) :: linesAux [] b := by
  induction a with
  | nil =>
    intro acc b
    rw [List.nil_append, linesAux, if_pos rfl]
    simp
  | cons c a ih =>
    intro acc b
    have hc : ¬ c = '\n' := ha c (List.mem_cons_self c a)
    rw [List.cons_append, linesAux, if_neg hc,
      ih (fun x hx => ha x (List.mem_cons_of_mem c hx)) (c :: acc)]
    simp [List.append_assoc]

theorem rustLines_cons_of (a b : List Char) (ha : ∀ c ∈ a, c ≠ '\n')
    (hcr : a.getLast? ≠ some '\r') :
    rustLines (a ++ '\n' :: b) = a :: rustLines b := by
  rw [rustLines, linesAux_append_nl a ha [] b, List.append_nil,
    finishLine_reverse a hcr]
  rfl

theorem rustLines_joinNl (ls : List (List Char))
    (h : ∀ l ∈ ls, (∀ c ∈ l, c ≠ '\n') ∧ l.getLast? ≠ some '\r') :
    rustLines (joinNl ls) = ls := by
  induction ls with
  | nil => rfl
  | cons l ls ih =>
    have hjoin : joinNl (l :: ls) = l ++ '\n' :: joinNl ls := by
      simp [joinNl]
    rw [hjoin, rustLines_cons_of l (joinNl ls)
      (h l (List.mem_cons_self l ls)).1 (h l (List.mem_cons_self l ls)).2,
      ih (fun x hx => h x (List.mem_cons_of_mem l hx))]

theorem matchVerAt_shape (lit sp1 sp2 val rest : List Char)
    (hsp1 : ∀ c ∈ sp1, c = ' ') (hsp2 : ∀ c ∈ sp2, c = ' ')
    (hval0 : val ≠ []) (hvalh : ∀ c, val.head? = some c → isWsChar c = false)
    (hvalnl : ∀ c ∈ val, c ≠ '\n') :
    package.matchVerAt lit
        (lit ++ (sp1 ++ '=' :: (sp2 ++ (val ++ '\n' :: rest)))) =
      some (lit ++ sp1 ++ '=' :: sp2, val, '\n' :: rest) := by
  obtain ⟨vh, vt, rfl⟩ := List.exists_cons_of_ne_nil hval0
  have hvh : isWsChar vh = false := hvalh vh rfl
  have hsp1w : ∀ c ∈ sp1, isWsChar c = true := fun c hc => by
    rw [hsp1 c hc]; decide
  have hsp2w : ∀ c ∈ sp2, isWsChar c = true := fun c hc => by
    rw [hsp2 c hc]; decide
  have hp : hasPrefixL lit
      (lit ++ (sp1 ++ '=' :: (sp2 ++ (vh :: vt ++ '\n' :: rest)))) = true :=
    (hasPrefixL_iff _ _).mpr ⟨_, rfl⟩
  have hd1 : (sp1 ++ '=' :: (sp2 ++ (vh :: vt ++ '\n' :: rest))).dropWhile
      isWsChar = '=' :: (sp2 ++ (vh :: vt ++ '\n' :: rest)) := by
    rw [dropWhile_append_of_all _ _ _ hsp1w]
    exact dropWhile_cons_neg _ _ _ (by decide)
  have ht1 : (sp1 ++ '=' :: (sp2 ++ (vh :: vt ++ '\n' :: rest))).takeWhile
      isWsChar = sp1 := by
    rw [takeWhile_append_of_all _ _ _ hsp1w,
      takeWhile_cons_neg _ _ _ (by decide), List.append_nil]
  have hd2 : (sp2 ++ (vh :: vt ++ '\n' :: rest)).dropWhile isWsChar =
      vh :: vt ++ '\n' :: rest := by
    rw [dropWhile_append_of_all _ _ _ hsp2w, List.cons_append,
      dropWhile_cons_neg _ _ _ hvh]
  have ht2 : (sp2 ++ (vh :: vt ++ '\n' :: rest)).takeWhile isWsChar = sp2 := by
    rw [takeWhile_append_of_all _ _ _ hsp2w, List.cons_append,
      takeWhile_cons_neg _ _ _ hvh, List.append_nil]
  have hvnl : ∀ c ∈ vh :: vt, (!(decide (c = '\n'))) = true := fun c hc => by
    simp [hvalnl c hc]
  have ht3 : (vh :: vt ++ '\n' :: rest).takeWhile
      (fun c => !(decide (c = '\n'))) = vh :: vt := by
    rw [takeWhile_append_of_all _ _ _ hvnl,
      takeWhile_cons_neg _ _ _ (by decide), List.append_nil]
  have hd3 : (vh :: vt ++ '\n' :: rest).dropWhile
      (fun c => !(decide (c = '\n'))) = '\n' :: rest := by
    rw [dropWhile_append_of_all _ _ _ hvnl,
      dropWhile_cons_neg _ _ _ (by decide)]
  rw [package.matchVerAt, if_pos hp, List.drop_left]
  split
  case h_2 hne =>
    exact absurd (hne _ hd1) (fun h0 => h0)
  case h_1 r1 heq =>
    rw [hd1] at heq
    obtain rfl : sp2 ++ (vh :: vt ++ '\n' :: rest) = r1 := (List.cons.inj heq).2
    split
    case h_1 heq2 =>
      rw [hd2] at heq2
      cases heq2
    case h_2 x xs heq2 =>
      rw [ht1, ht2, hd2, ht3, hd3]

theorem findVerMatch_of_matchVerAt (lit text g1 g2 rest : List Char)
    (h : package.matchVerAt lit text = some (g1, g2, rest)) :
    package.findVerMatch lit text = some ⟨[], g1, g2, rest⟩ := by
  cases text with
  | nil => rw [package.findVerMatch, h]
  | cons c cs => rw [package.findVerMatch, h]

theorem varsNames_eval (stem : List Char) :
    package.varsNames stem =
      [("version".data, stem ++ "_VERSION".data),
       ("site".data, stem ++ "_SITE".data),
       ("source".data, stem ++ "_SOURCE".data),
       ("license".data, stem ++ "_LICENSE".data),
       ("dependencies".data, stem ++ "_DEPENDENCIES".data)] := by
  simp only [package.varsNames, package.propNames, List.map_cons, List.map_nil,
    show 'v'.toUpper = 'V' from by decide, show 'e'.toUpper = 'E' from by decide,
    show 'r'.toUpper = 'R' from by decide, show 's'.toUpper = 'S' from by decide,
    show 'i'.toUpper = 'I' from by decide, show 'o'.toUpper = 'O' from by decide,
    show 'n'.toUpper = 'N' from by decide, show 't'.toUpper = 'T' from by decide,
    show 'u'.toUpper = 'U' from by decide, show 'c'.toUpper = 'C' from by decide,
    show 'l'.toUpper = 'L' from by decide, show 'd'.toUpper = 'D' from by decide,
    show 'p'.toUpper = 'P' from by decide]

theorem processLine_skip (l pn var : List Char)
    (vars : List (List Char × List Char)) (props : List (List Char × List Char))
    (h : hasPrefixL var l = false) :
    package.processLine l ((pn, var) :: vars) props =
      package.processLine l vars props := by
  rw [package.processLine, if_neg (by simp [h])]

theorem processLine_preserve (l : List Char)
    (vars : List (List Char × List Char)) :
    ∀ props, (∀ pv ∈ vars, hasPrefixL pv.2 l = true →
        (splitOnCharL '=' l).length = 2 ∧ pv.1 ≠ "version".data) →
      ∃ props', package.processLine l vars props = .ok props' ∧
        package.lookupProp "version".data props' =
          package.lookupProp "version".data props := by
  induction vars with
  | nil => exact fun props _ => ⟨props, rfl, rfl⟩
  | cons pv vars ih =>
    intro props h
    obtain ⟨pn, var⟩ := pv
    by_cases hp : hasPrefixL var l = true
    · obtain ⟨hlen, hne⟩ := h (pn, var) (List.mem_cons_self _ _) hp
      obtain ⟨a, b, hab⟩ : ∃ a b, splitOnCharL '=' l = [a, b] := by
        cases hsp : splitOnCharL '=' l with
        | nil => rw [hsp] at hlen; simp at hlen
        | cons x xs =>
          cases xs with
          | nil => rw [hsp] at hlen; simp at hlen
          | cons y ys =>
            cases ys with
            | nil => exact ⟨x, y, rfl⟩
            | cons z zs => rw [hsp] at hlen; simp at hlen
      obtain ⟨props', hps, hlk⟩ := ih ((pn, trimL b) :: props)
        (fun q hq => h q (List.mem_cons_of_mem _ hq))
      refine ⟨props', ?_, ?_⟩
      · rw [package.processLine, if_pos hp, hab]
        exact hps
      · rw [hlk]
        simp only [package.lookupProp]
        rw [List.find?_cons_of_neg _ (by simpa using hne)]
    · rw [processLine_skip l pn var vars props (by simpa using hp)]
      exact ih props (fun q hq => h q (List.mem_cons_of_mem _ hq))

theorem processLines_preserve (vars : List (List Char × List Char))
    (ls : List (List Char)) :
    ∀ props, (∀ l ∈ ls, ∀ pv ∈ vars, hasPrefixL pv.2 l = true →
        (splitOnCharL '=' l).length = 2 ∧ pv.1 ≠ "version".data) →
      ∃ props', package.processLines vars ls props = .ok props' ∧
        package.lookupProp "version".data props' =
          package.lookupProp "version".data props := by
  induction ls with
  | nil => exact fun props _ => ⟨props, rfl, rfl⟩
  | cons l ls ih =>
    intro props h
    obtain ⟨p1, hp1, hl1⟩ := processLine_preserve l vars props
      (h l (List.mem_cons_self _ _))
    obtain ⟨p2, hp2, hl2⟩ := ih p1 (fun l' hm => h l' (List.mem_cons_of_mem _ hm))
    refine ⟨p2, ?_, hl2.trans hl1⟩
    rw [package.processLines, hp1]
    exact hp2

theorem processLine_version (stem l a b : List Char)
    (props : List (List Char × List Char))
    (hab : splitOnCharL '=' l = [a, b])
    (hver : hasPrefixL (stem ++ "_VERSION".data) l = true)
    (hsite : hasPrefixL (stem ++ "_SITE".data) l = false)
    (hsource : hasPrefixL (stem ++ "_SOURCE".data) l = false)
    (hlicense : hasPrefixL (stem ++ "_LICENSE".data) l = false)
    (hdeps : hasPrefixL (stem ++ "_DEPENDENCIES".data) l = false) :
    package.processLine l (package.varsNames stem) props =
      .ok (("version".data, trimL b) :: props) := by
  rw [varsNames_eval, package.processLine, if_pos hver, hab]
  have htail : package.processLine l
      [("site".data, stem ++ "_SITE".data),
       ("source".data, stem ++ "_SOURCE".data),
       ("license".data, stem ++ "_LICENSE".data),
       ("dependencies".data, stem ++ "_DEPENDENCIES".data)]
      (("version".data, trimL b) :: props) =
      .ok (("version".data, trimL b) :: props) := by
    rw [processLine_skip _ _ _ _ _ hsite, processLine_skip _ _ _ _ _ hsource,
      processLine_skip _ _ _ _ _ hlicense, processLine_skip _ _ _ _ _ hdeps,
      package.processLine]
  exact htail

theorem fromPath_eval (fs : List Char → Option (List Char))
    (p name text : List Char) (hfs : fs p = some text)
    (hstem : package.fileStem p = some name) :
    package.PackageInfo.fromPath fs p =
      package.PackageInfo.fromLines name (rustLines text) := by
  rw [package.PackageInfo.fromPath, hfs, hstem]

theorem versionLineShape_no_nl (name sp1 sp2 u : List Char)
    (hlitNl : '\n' ∉ package.verLit name)
    (hsp1 : ∀ c ∈ sp1, c = ' ') (hsp2 : ∀ c ∈ sp2, c = ' ')
    (huNl : '\n' ∉ u) :
    ∀ c ∈ versionLineShape name sp1 sp2 u, c ≠ '\n' := by
  intro c hc heq
  subst heq
  simp only [versionLineShape, List.mem_append, List.mem_cons] at hc
  rcases hc with h | h | h | h | h
  · exact hlitNl h
  · exact absurd (hsp1 _ h) (by decide)
  · exact absurd h (by decide)
  · exact absurd (hsp2 _ h) (by decide)
  · exact huNl h

theorem versionLineShape_last (name sp1 sp2 u : List Char)
    (hsp2 : ∀ c ∈ sp2, c = ' ')
    (hu : ∀ c, u.reverse.head? = some c → isWsChar c = false) :
    (versionLineShape name sp1 sp2 u).getLast? ≠ some '\r' := by
  rw [← List.head?_reverse]
  have hrev : (versionLineShape name sp1 sp2 u).reverse =
      u.reverse ++ (sp2.reverse ++
        ('=' :: (sp1.reverse ++ (package.verLit name).reverse))) := by
    simp [versionLineShape, List.reverse_append, List.append_assoc]
  rw [hrev]
  cases hu0 : u.reverse with
  | nil =>
    simp only [List.nil_append]
    cases hsp0 : sp2.reverse with
    | nil =>
      simp only [List.nil_append]
      intro hcontra
      simp at hcontra
    | cons d t2 =>
      have hd : d = ' ' := hsp2 d (by
        rw [← List.mem_reverse, hsp0]
        exact List.mem_cons_self _ _)
      subst hd
      simp only [List.cons_append]
      intro hcontra
      simp at hcontra
  | cons c t =>
    have hc := hu c (by rw [hu0]; rfl)
    simp only [List.cons_append]
    intro hcontra
    obtain rfl : c = '\r' := by simpa using hcontra
    rw [show isWsChar '\r' = true from by decide] at hc
    cases hc

/-- Claim C5, counterexample: the descriptor `FOO_VERSION = 1.0` has the
component's version declared, but the round trip with the new version `2=2`
fails to parse (the rewritten line has two `=`), instead of yielding `2=2`. -/
theorem claim_c5_counterexample :
    ∃ fs', package.setPackageVersion
        (fun q => if q = "foo.mk".data then some "FOO_VERSION = 1.0\n".data
          else none) "foo.mk".data "2=2".data = .ok fs' ∧
      package.PackageInfo.fromPath fs' "foo.mk".data =
        .error (.invalidVariable "FOO_VERSION = 2=2".data) := by
  refine ⟨_, rfl, ?_⟩
  decide

/-- Claim C5 as amended: the round trip holds for descriptors whose version
declaration opens the file (so the pattern's first match is that declaration),
whose other lines neither start with `STEM_VERSION` nor make the parser fail,
and for new versions that contain no `=`, no newline and no surrounding
whitespace: `set_package_version` then `from_path` yields exactly the new
version. -/
theorem claim_c5_amended (fs : List Char → Option (List Char))
    (p name sp1 sp2 val v : List Char) (restLines : List (List Char))
    (hstem : package.fileStem p = some name)
    (hread : fs p = some (descriptorShape name sp1 sp2 val restLines))
    (hsp1 : ∀ c ∈ sp1, c = ' ') (hsp2 : ∀ c ∈ sp2, c = ' ')
    (hval0 : val ≠ []) (hvalh : isWsChar (val.headD '=') = false)
    (hvalnl : '\n' ∉ val)
    (hlitEq : '=' ∉ package.verLit name) (hlitNl : '\n' ∉ package.verLit name)
    (hvEq : '=' ∉ v) (hvNl : '\n' ∉ v)
    (hvA : v.dropWhile isWsChar = v)
    (hvB : v.reverse.dropWhile isWsChar = v.reverse)
    (hrest : ∀ l ∈ restLines,
      (∀ c ∈ l, c ≠ '\n') ∧ l.getLast? ≠ some '\r' ∧
      hasPrefixL (package.verLit name) l = false ∧
      (∀ pv ∈ package.varsNames (package.canonicalize name),
        hasPrefixL pv.2 l = true → (splitOnCharL '=' l).length = 2)) :
    ∃ fs' info, package.setPackageVersion fs p v = .ok fs' ∧
      package.PackageInfo.fromPath fs' p = .ok info ∧
      info.version? = some v := by
  have hvalh' : ∀ c, val.head? = some c → isWsChar c = false := by
    intro c hc
    cases val with
    | nil => cases hc
    | cons a t =>
      obtain rfl : a = c := by simpa using hc
      simpa using hvalh
  have hvalnl' : ∀ c ∈ val, c ≠ '\n' := fun c hc heq => hvalnl (heq ▸ hc)
  have hmatch := matchVerAt_shape (package.verLit name) sp1 sp2 val
    (joinNl restLines) hsp1 hsp2 hval0 hvalh' hvalnl'
  have hfind := findVerMatch_of_matchVerAt _ _ _ _ _ hmatch
  have hrepl : package.replaceVersion
      (descriptorShape name sp1 sp2 val restLines) name v =
      descriptorShape name sp1 sp2 v restLines := by
    rw [package.replaceVersion,
      show descriptorShape name sp1 sp2 val restLines =
        package.verLit name ++ (sp1 ++ '=' ::
          (sp2 ++ (val ++ '\n' :: joinNl restLines))) from rfl, hfind]
    simp [descriptorShape, List.append_assoc]
  have hset : package.setPackageVersion fs p v = .ok (fun q =>
      if q = p then some (package.replaceVersion
        (descriptorShape name sp1 sp2 val restLines) name v) else fs q) := by
    rw [package.setPackageVersion, hstem, hread]
  have hvlast : ∀ c, v.reverse.head? = some c → isWsChar c = false :=
    head?_not_of_dropWhile_eq isWsChar v.reverse hvB
  have hnl1 : ∀ c ∈ versionLineShape name sp1 sp2 v, c ≠ '\n' :=
    versionLineShape_no_nl name sp1 sp2 v hlitNl hsp1 hsp2 hvNl
  have hcr1 : (versionLineShape name sp1 sp2 v).getLast? ≠ some '\r' :=
    versionLineShape_last name sp1 sp2 v hsp2 hvlast
  have hlines : rustLines (descriptorShape name sp1 sp2 v restLines) =
      versionLineShape name sp1 sp2 v :: restLines := by
    rw [show descriptorShape name sp1 sp2 v restLines =
      versionLineShape name sp1 sp2 v ++ '\n' :: joinNl restLines from by
        simp [descriptorShape, versionLineShape, List.append_assoc]]
    rw [rustLines_cons_of _ _ hnl1 hcr1,
      rustLines_joinNl restLines (fun l hl => ⟨(hrest l hl).1, (hrest l hl).2.1⟩)]
  have hAeq : '=' ∉ package.verLit name ++ sp1 := by
    intro hm
    rcases List.mem_append.mp hm with h | h
    · exact hlitEq h
    · exact absurd (hsp1 _ h) (by decide)
  have hBeq : '=' ∉ sp2 ++ v := by
    intro hm
    rcases List.mem_append.mp hm with h | h
    · exact absurd (hsp2 _ h) (by decide)
    · exact hvEq h
  have hsplit : splitOnCharL '=' (versionLineShape name sp1 sp2 v) =
      [package.verLit name ++ sp1, sp2 ++ v] := by
    rw [show versionLineShape name sp1 sp2 v =
      (package.verLit name ++ sp1) ++ '=' :: (sp2 ++ v) from by
        simp [versionLineShape, List.append_assoc]]
    exact splitOnCharL_pair '=' _ _ hAeq hBeq
  have hverpre : hasPrefixL (package.canonicalize name ++ "_VERSION".data)
      (versionLineShape name sp1 sp2 v) = true :=
    (hasPrefixL_iff _ _).mpr ⟨sp1 ++ '=' :: (sp2 ++ v), rfl⟩
  have hassoc : versionLineShape name sp1 sp2 v =
      package.canonicalize name ++
        ("_VERSION".data ++ (sp1 ++ '=' :: (sp2 ++ v))) := by
    simp [versionLineShape, package.verLit, List.append_assoc]
  have hsite : hasPrefixL (package.canonicalize name ++ "_SITE".data)
      (versionLineShape name sp1 sp2 v) = false := by
    rw [hassoc, hasPrefixL_append_same]
    rfl
  have hsource : hasPrefixL (package.canonicalize name ++ "_SOURCE".data)
      (versionLineShape name sp1 sp2 v) = false := by
    rw [hassoc, hasPrefixL_append_same]
    rfl
  have hlicense : hasPrefixL (package.canonicalize name ++ "_LICENSE".data)
      (versionLineShape name sp1 sp2 v) = false := by
    rw [hassoc, hasPrefixL_append_same]
    rfl
  have hdeps : hasPrefixL (package.canonicalize name ++ "_DEPENDENCIES".data)
      (versionLineShape name sp1 sp2 v) = false := by
    rw [hassoc, hasPrefixL_append_same]
    rfl
  have hline1 := processLine_version (package.canonicalize name)
    (versionLineShape name sp1 sp2 v) (package.verLit name ++ sp1) (sp2 ++ v)
    [] hsplit hverpre hsite hsource hlicense hdeps
  rw [trimL_spaces sp2 v hsp2 hvA hvB] at hline1
  have hcond : ∀ l ∈ restLines,
      ∀ pv ∈ package.varsNames (package.canonicalize name),
      hasPrefixL pv.2 l = true →
        (splitOnCharL '=' l).length = 2 ∧ pv.1 ≠ "version".data := by
    intro l hl pv hpv hpre
    refine ⟨(hrest l hl).2.2.2 pv hpv hpre, ?_⟩
    intro hpv1
    obtain ⟨p1, p2⟩ := pv
    rw [varsNames_eval] at hpv
    simp only [List.mem_cons, List.not_mem_nil, or_false] at hpv
    rcases hpv with h5 | h5 | h5 | h5 | h5 <;>
      rw [Prod.mk.injEq] at h5 <;> obtain ⟨rfl, rfl⟩ := h5
    · have hfalse : hasPrefixL
          (package.canonicalize name ++ "_VERSION".data) l = false :=
        (hrest l hl).2.2.1
      rw [hfalse] at hpre
      cases hpre
    · exact absurd (show ("site".data : List Char) = "version".data from hpv1)
        (by decide)
    · exact absurd (show ("source".data : List Char) = "version".data from hpv1)
        (by decide)
    · exact absurd (show ("license".data : List Char) = "version".data from hpv1)
        (by decide)
    · exact absurd
        (show ("dependencies".data : List Char) = "version".data from hpv1)
        (by decide)
  obtain ⟨props', hp', hlk⟩ := processLines_preserve
    (package.varsNames (package.canonicalize name)) restLines
    [("version".data, v)] hcond
  have hlkv : package.lookupProp "version".data props' = some v := by
    rw [hlk]
    simp [package.lookupProp]
  have hall : package.processLines
      (package.varsNames (package.canonicalize name))
      (versionLineShape name sp1 sp2 v :: restLines) [] = .ok props' := by
    rw [package.processLines, hline1]
    exact hp'
  have hparse : package.PackageInfo.fromLines name
      (versionLineShape name sp1 sp2 v :: restLines) = .ok ⟨name, props'⟩ := by
    rw [package.PackageInfo.fromLines]
    simp only [hall, hlkv, Option.isSome_some, if_true]
  refine ⟨_, ⟨name, props'⟩, hset, ?_, ?_⟩
  · have happ : (fun q => if q = p then some (package.replaceVersion
        (descriptorShape name sp1 sp2 val restLines) name v) else fs q) p =
        some (descriptorShape name sp1 sp2 v restLines) := by
      simp [hrepl]
    rw [fromPath_eval _ _ name _ happ hstem, hlines]
    exact hparse
  · exact hlkv

/-- Claim C5, witness: the round trip on the descriptor
`FOO_VERSION = 1.2.3` + `FOO_SITE = http://x` with new version `3.2.1`. -/
theorem claim_c5_witness :
    ∃ fs' info, package.setPackageVersion
        (fun q => if q = "pkg/foo.mk".data then
          some (descriptorShape "foo".data [' '] [' '] "1.2.3".data
            ["FOO_SITE = http://x".data]) else none)
        "pkg/foo.mk".data "3.2.1".data = .ok fs' ∧
      package.PackageInfo.fromPath fs' "pkg/foo.mk".data = .ok info ∧
      info.version? = some "3.2.1".data :=
  claim_c5_amended _ "pkg/foo.mk".data "foo".data [' '] [' '] "1.2.3".data
    "3.2.1".data ["FOO_SITE = http://x".data]
    (by decide) (by decide) (by decide) (by decide) (by decide) (by decide)
    (by decide) (by decide) (by decide) (by decide) (by decide) (by decide)
    (by decide) (by decide)

/-! ### Claims C7, C8, C9 (`buildroot.rs`) -/

theorem fromLinesAux_ok_sound (path : List Char) (ls : List (List Char)) :
    ∀ acc info,
      buildroot.ExternalTreeInfo.fromLinesAux path ls acc = .ok info →
      ∀ l ∈ ls, manifestLineOk l = true := by
  induction ls with
  | nil =>
    intro acc info _ l hl
    cases hl
  | cons l ls ih =>
    intro acc info h l' hl'
    rw [buildroot.ExternalTreeInfo.fromLinesAux] at h
    split at h
    case h_1 k vf heq =>
      split_ifs at h with hk1 hk2
      · rcases List.mem_cons.mp hl' with rfl | hm
        · rw [manifestLineOk, heq]
          simp [hk1]
        · exact ih _ _ h l' hm
      · rcases List.mem_cons.mp hl' with rfl | hm
        · rw [manifestLineOk, heq]
          simp [hk2]
        · exact ih _ _ h l' hm
    case h_2 =>
      simp at h

theorem fromLinesAux_ok_complete (path : List Char) (ls : List (List Char))
    (hall : ∀ l ∈ ls, manifestLineOk l = true) :
    ∀ acc, ∃ info,
      buildroot.ExternalTreeInfo.fromLinesAux path ls acc = .ok info := by
  induction ls with
  | nil => exact fun acc => ⟨acc, rfl⟩
  | cons l ls ih =>
    intro acc
    have hl := hall l (List.mem_cons_self _ _)
    rw [manifestLineOk] at hl
    rw [buildroot.ExternalTreeInfo.fromLinesAux]
    cases hsp : splitOnCharL ':' l with
    | nil =>
      rw [hsp] at hl
      simp at hl
    | cons k ks =>
      cases ks with
      | nil =>
        rw [hsp] at hl
        simp at hl
      | cons vf ks2 =>
        cases ks2 with
        | cons z zs =>
          rw [hsp] at hl
          simp at hl
        | nil =>
          rw [hsp] at hl
          simp only [Bool.or_eq_true, decide_eq_true_eq] at hl
          by_cases hk1 : k = "name".data
          · obtain ⟨info, hinfo⟩ :=
              ih (fun x hx => hall x (List.mem_cons_of_mem _ hx))
                ⟨trimL vf, acc.desc⟩
            refine ⟨info, ?_⟩
            show (if k = "name".data then
                buildroot.ExternalTreeInfo.fromLinesAux path ls
                  ⟨trimL vf, acc.desc⟩
              else if k = "desc".data then
                buildroot.ExternalTreeInfo.fromLinesAux path ls
                  ⟨acc.name, trimL vf⟩
              else .error (.invalidExternalTreeManifest path)) = .ok info
            rw [if_pos hk1]
            exact hinfo
          · have hk2 : k = "desc".data := by
              rcases hl with h0 | h0
              · exact absurd h0 hk1
              · exact h0
            obtain ⟨info, hinfo⟩ :=
              ih (fun x hx => hall x (List.mem_cons_of_mem _ hx))
                ⟨acc.name, trimL vf⟩
            refine ⟨info, ?_⟩
            show (if k = "name".data then
                buildroot.ExternalTreeInfo.fromLinesAux path ls
                  ⟨trimL vf, acc.desc⟩
              else if k = "desc".data then
                buildroot.ExternalTreeInfo.fromLinesAux path ls
                  ⟨acc.name, trimL vf⟩
              else .error (.invalidExternalTreeManifest path)) = .ok info
            rw [if_neg hk1, if_pos hk2]
            exact hinfo

/-- Claim C7, counterexample: the one-line manifest `name: a` (wrong line
count, no `desc` key) is accepted by the code, which never checks the line
count, whereas the claim says construction fails. -/
theorem claim_c7_counterexample :
    buildroot.ExternalTreeInfo.fromContent "p".data "name: a".data =
      .ok ⟨"a".data, []⟩ ∧
    (rustLines "name: a".data).length = 1 := by
  decide

/-- Claim C7 as amended: manifest construction succeeds iff every line of
the content splits on `':'` into exactly two fields whose key is `name` or
`desc`; the line count is not checked (zero lines or a missing key succeed
with empty defaults, later duplicates overwrite), any bad line fails with
`InvalidExternalTreeManifest`, and a missing manifest file surfaces as an
I/O error at the reading boundary, not as `InvalidExternalTreeManifest`. -/
theorem claim_c7_amended (path text : List Char) :
    (∃ info, buildroot.ExternalTreeInfo.fromContent path text = .ok info) ↔
      ∀ l ∈ rustLines text, manifestLineOk l = true := by
  constructor
  · rintro ⟨info, h⟩
    exact fromLinesAux_ok_sound path (rustLines text) _ info h
  · intro hall
    exact fromLinesAux_ok_complete path (rustLines text) hall ⟨[], []⟩

/-- Claim C7, witness: the two-line manifest `name: a`, `desc: b` satisfies
the amended equivalence. -/
theorem claim_c7_witness :
    (∃ info, buildroot.ExternalTreeInfo.fromContent "p".data
        "name: a\ndesc: b".data = .ok info) ↔
      ∀ l ∈ rustLines "name: a\ndesc: b".data, manifestLineOk l = true :=
  claim_c7_amended "p".data "name: a\ndesc: b".data

theorem find?_append_some {α : Type} (p : α → Bool) (l1 l2 : List α) (x : α)
    (h : l1.find? p = some x) : (l1 ++ l2).find? p = some x := by
  induction l1 with
  | nil => cases h
  | cons a l ih =>
    rw [List.cons_append]
    cases hpa : p a with
    | true =>
      rw [List.find?_cons_of_pos _ hpa] at h
      rw [List.find?_cons_of_pos _ hpa]
      exact h
    | false =>
      rw [List.find?_cons_of_neg _ (by simp [hpa])] at h
      rw [List.find?_cons_of_neg _ (by simp [hpa])]
      exact ih h

/-- Claim C8 (confirmed): when the base tree indexes `name` at path `p`,
`get_package_version` reads the descriptor at the base tree's path even if
an auxiliary tree also indexes the name (trees are searched in order, base
first); a name indexed by no tree fails with `UnknownPackage`. -/
theorem claim_c8 (fs : List Char → Option (List Char))
    (t0 : buildroot.BuildrootBaseTree) (rest : List buildroot.BuildrootTree)
    (name p : List Char) :
    ((t0.packages.find? (fun e => decide (e.1 = name)) = some (name, p)) →
      (∃ t ∈ rest, ((buildroot.treePackages t).find?
        (fun e => decide (e.1 = name))).isSome = true) →
      buildroot.Buildroot.getPackageVersion fs ⟨.main t0 :: rest⟩ name =
        buildroot.readPackageVersion fs p) ∧
    ((∀ e ∈ (buildroot.Buildroot.mk (.main t0 :: rest)).packagesList,
        e.1 ≠ name) →
      buildroot.Buildroot.getPackageVersion fs ⟨.main t0 :: rest⟩ name =
        .error (.unknownPackage name)) := by
  constructor
  · intro hfind _haux
    have hlist : (buildroot.Buildroot.mk (.main t0 :: rest)).packagesList =
        t0.packages ++ (rest.map buildroot.treePackages).flatten := by
      simp [buildroot.Buildroot.packagesList, buildroot.treePackages]
    rw [buildroot.Buildroot.getPackageVersion, hlist,
      find?_append_some _ _ _ _ hfind]
  · intro hnone
    have hf : (buildroot.Buildroot.mk
        (.main t0 :: rest)).packagesList.find?
        (fun e => decide (e.1 = name)) = none := by
      rw [List.find?_eq_none]
      intro x hx
      simp [hnone x hx]
    rw [buildroot.Buildroot.getPackageVersion, hf]

/-- Claim C8, witness: `foo` indexed by the base tree and by an auxiliary
tree resolves to the base tree's path; `bar`, indexed nowhere, fails with
`UnknownPackage`. -/
theorem claim_c8_witness :
    buildroot.Buildroot.getPackageVersion
        (fun q => if q = "main/foo.mk".data then
          some "FOO_VERSION = 1.2.3\n".data else none)
        ⟨[.main ⟨"main".data, [], [("foo".data, "main/foo.mk".data)]⟩,
          .external "e".data
            ⟨"ext".data, [], [("foo".data, "ext/foo.mk".data)]⟩]⟩
        "foo".data =
      buildroot.readPackageVersion
        (fun q => if q = "main/foo.mk".data then
          some "FOO_VERSION = 1.2.3\n".data else none) "main/foo.mk".data ∧
    buildroot.Buildroot.getPackageVersion (fun _ => none)
        ⟨[.main ⟨"main".data, [], [("foo".data, "main/foo.mk".data)]⟩]⟩
        "bar".data = .error (.unknownPackage "bar".data) :=
  ⟨(claim_c8 _ ⟨"main".data, [], [("foo".data, "main/foo.mk".data)]⟩
      [.external "e".data ⟨"ext".data, [], [("foo".data, "ext/foo.mk".data)]⟩]
      "foo".data "main/foo.mk".data).1 (by decide)
      ⟨.external "e".data ⟨"ext".data, [], [("foo".data, "ext/foo.mk".data)]⟩,
        by decide, by decide⟩,
   (claim_c8 (fun _ => none)
      ⟨"main".data, [], [("foo".data, "main/foo.mk".data)]⟩
      [] "bar".data "unused".data).2 (by decide)⟩

/-- Claim C9 (confirmed): every `Buildroot` successfully produced by a
`BuildrootExplorer` (new, any number of `external_tree` calls, `explore`)
has a non-empty tree list whose first element is the `Main` variant, so
`main_tree_path` never reaches its `unreachable!()` branch. -/
theorem claim_c9 (fs : buildroot.BrFS) (mainP : List Char)
    (exts : List (List Char)) (br : buildroot.Buildroot)
    (h : buildroot.BuildrootExplorer.explore fs
      (exts.foldl buildroot.BuildrootExplorer.externalTree
        (buildroot.BuildrootExplorer.new mainP)) = .ok br) :
    br.mainTreePath?.isSome := by
  have hpaths : ∀ (xs : List (List Char)) (e : buildroot.BuildrootExplorer),
      (xs.foldl buildroot.BuildrootExplorer.externalTree e).paths =
        e.paths ++ xs.map buildroot.BuildrootTreePath.external := by
    intro xs
    induction xs with
    | nil => intro e; simp
    | cons x xs ih =>
      intro e
      rw [List.foldl_cons, ih, List.map_cons]
      simp [buildroot.BuildrootExplorer.externalTree]
  rw [buildroot.BuildrootExplorer.explore, hpaths exts
    (buildroot.BuildrootExplorer.new mainP)] at h
  have hnew : (buildroot.BuildrootExplorer.new mainP).paths ++
      exts.map buildroot.BuildrootTreePath.external =
      .main mainP :: exts.map buildroot.BuildrootTreePath.external := rfl
  rw [hnew, buildroot.collectExcept] at h
  cases hm : buildroot.BuildrootTree.fromPath fs (.main mainP) with
  | error e =>
    simp only [hm] at h
    cases h
  | ok t =>
    obtain ⟨base, rfl⟩ : ∃ base, t = .main base := by
      rw [buildroot.BuildrootTree.fromPath,
        buildroot.BuildrootTree.mainFromPath] at hm
      split at hm
      · cases hm
      · split at hm
        · cases hm
        · exact ⟨_, (Except.ok.inj hm).symm⟩
    simp only [hm] at h
    cases hc : buildroot.collectExcept (buildroot.BuildrootTree.fromPath fs)
        (exts.map buildroot.BuildrootTreePath.external) with
    | error e =>
      simp only [hc] at h
      cases h
    | ok ts =>
      simp only [hc] at h
      obtain rfl : buildroot.Buildroot.mk (.main base :: ts) = br :=
        Except.ok.inj h
      rfl

/-- Claim C9, witness: exploring a mock tree with every required
subdirectory present and no external trees yields a `Buildroot` whose
`main_tree_path` is defined. -/
theorem claim_c9_witness :
    (buildroot.Buildroot.mk
      [.main ⟨"br".data, [], []⟩]).mainTreePath?.isSome :=
  claim_c9 ⟨fun _ => true, fun _ => true, fun _ => .ok [], fun _ => none⟩
    "br".data [] (buildroot.Buildroot.mk [.main ⟨"br".data, [], []⟩]) rfl

end Br2Utils
